import Mathlib

/-!
# The simple record parser (`examples/simple_parser/simple_parser.c`)

A shallow embedding of `parse_record`, `parse_record_safe` and `parse_file`.

Conventions of the embedding.

* A pointer `unsigned char* data` is the list of the bytes stored from the
  pointed address on; `data + k` is `data.drop k`.  The declared length `size`
  is a separate number, exactly as in C, and nothing forces it to agree with
  the amount of memory behind the pointer.  A load behind the end of the list
  yields 0; a theorem that holds for every list and every `size` thereby holds
  for every content of the memory behind a buffer, which is a longer list.
* Every load from `data` and every store into `rec->name` or
  `rec->description` is logged with its index, so that "is this access inside
  the buffer / inside the field" is a property of the log.
* A `Record` holds the two character arrays as lists (of length 64 and 256 for
  a well-formed record) and the `int` as an `Int`.  A store whose index is not
  inside the array is logged and leaves the array as it is.  In the compiled
  struct the bytes behind `name` are `value` and `description`, which a name
  length of 64 or more overwrites; the model does not follow that, so its
  record content is meaningful only where the store log stays inside the
  arrays.
  None of the three functions reads the record, so the theorems on status,
  cursor and termination do not depend on this choice; where a theorem says
  that an array keeps its former content, it is stated for a name that fits
  its array.
* Both pointer arguments are taken to be non-null, so the `!data || !rec` part
  of the first test is false.
* `int` is 32 bits wide and the target is little-endian.
-/

namespace SimpleParser

/-- The constant `MAX_SIZE`: the size of the stack buffer of `parse_file`. -/
def MAX_SIZE : Nat := 1024

/-- The struct `Record`: `char name[64]; int value; char description[256]`. -/
structure Record where
  name : List Nat
  value : Int
  description : List Nat
deriving DecidableEq

/-- Both arrays of the record have their declared number of elements. -/
def Record.wf (r : Record) : Prop :=
  r.name.length = 64 ∧ r.description.length = 256

instance (r : Record) : Decidable r.wf := by
  unfold Record.wf; exact inferInstance

/-- A record whose arrays are filled with the byte `c`. -/
def filledRecord (c : Nat) : Record :=
  { name := List.replicate 64 c, value := 0, description := List.replicate 256 c }

/-- The load `data[i]` through an `unsigned char*`: a value in `0..255`. -/
def rd (data : List Nat) (i : Nat) : Nat := data.getD i 0 % 256

/-- The call `memcpy(dst, src, n)` on the destination array: byte `i` of the
source goes to index `i` of the destination, for `i = 0 .. n-1`. -/
def memcpy (dst src : List Nat) : Nat → List Nat
  | 0 => dst
  | n + 1 => (memcpy dst src n).set n (rd src n)

/-- The indices `base, base+1, ..., base+n-1` touched by a copy of `n` bytes. -/
def span (base n : Nat) : List Nat := (List.range n).map (fun i => base + i)

/-- The value of a 32-bit pattern read as a signed `int`. -/
def toInt32 (u : Nat) : Int :=
  if u % 4294967296 < 2147483648 then (u % 4294967296 : Nat)
  else ((u % 4294967296 : Nat) : Int) - 4294967296

/-- The load `*(int*)p`: four bytes, least significant first. -/
def read_int (p : List Nat) : Int :=
  toInt32 (rd p 0 + 256 * rd p 1 + 65536 * rd p 2 + 16777216 * rd p 3)

/-- What one call of a record decoder leaves behind: the returned status, the
record, and the log of the indices loaded from `data` and stored into the two
arrays, oldest first. -/
structure Result where
  status : Int
  record : Record
  reads : List Nat
  nameWrites : List Nat
  descWrites : List Nat
deriving DecidableEq

/-- The function `parse_record` (lines 25-53). -/
def parse_record (data : List Nat) (size : Nat) (r : Record) : Result :=
  if size < 4 then
    { status := -1, record := r, reads := [], nameWrites := [], descWrites := [] }
  else
    let name_len := rd data 0
    -- memcpy(rec->name, data + 1, name_len); rec->name[name_len] = '\0';
    let r1 : Record := { r with name := (memcpy r.name (data.drop 1) name_len).set name_len 0 }
    let reads1 := 0 :: span 1 name_len
    let nw := span 0 name_len ++ [name_len]
    if size < name_len + 5 then
      { status := -1, record := r1, reads := reads1, nameWrites := nw, descWrites := [] }
    else
      -- rec->value = *(int*)(data + name_len + 1);
      let r2 : Record := { r1 with value := read_int (data.drop (name_len + 1)) }
      let reads2 := reads1 ++ span (name_len + 1) 4
      let desc_len := rd data (name_len + 5)
      let reads3 := reads2 ++ [name_len + 5]
      if size ≥ name_len + desc_len + 6 then
        { status := 0,
          record := { r2 with description :=
            (memcpy r2.description (data.drop (name_len + 6)) desc_len).set desc_len 0 },
          reads := reads3 ++ span (name_len + 6) desc_len,
          nameWrites := nw,
          descWrites := span 0 desc_len ++ [desc_len] }
      else
        { status := 0, record := r2, reads := reads3, nameWrites := nw, descWrites := [] }

/-- The function `parse_record_safe` (lines 58-90). -/
def parse_record_safe (data : List Nat) (size : Nat) (r : Record) : Result :=
  if size < 4 then
    { status := -1, record := r, reads := [], nameWrites := [], descWrites := [] }
  else
    let name_len0 := rd data 0
    -- if (name_len >= sizeof(rec->name)) name_len = sizeof(rec->name) - 1;
    let name_len := if name_len0 ≥ 64 then 64 - 1 else name_len0
    let r1 : Record := { r with name := (memcpy r.name (data.drop 1) name_len).set name_len 0 }
    let reads1 := 0 :: span 1 name_len
    let nw := span 0 name_len ++ [name_len]
    if size < name_len + 5 then
      { status := -1, record := r1, reads := reads1, nameWrites := nw, descWrites := [] }
    else
      let r2 : Record := { r1 with value := read_int (data.drop (name_len + 1)) }
      let reads2 := reads1 ++ span (name_len + 1) 4
      let desc_len0 := rd data (name_len + 5)
      let reads3 := reads2 ++ [name_len + 5]
      -- if (desc_len >= sizeof(rec->description)) desc_len = sizeof(rec->description) - 1;
      let desc_len := if desc_len0 ≥ 256 then 256 - 1 else desc_len0
      if size ≥ name_len + desc_len + 6 then
        { status := 0,
          record := { r2 with description :=
            (memcpy r2.description (data.drop (name_len + 6)) desc_len).set desc_len 0 },
          reads := reads3 ++ span (name_len + 6) desc_len,
          nameWrites := nw,
          descWrites := span 0 desc_len ++ [desc_len] }
      else
        { status := 0, record := r2, reads := reads3, nameWrites := nw, descWrites := [] }

/-- The variables of the record loop of `parse_file`, with three observers:
the records the loop body reached its debug output with (`yielded`), the
offsets at which `parse_record` returned 0 (`starts`), and the number of times
the loop body was entered (`iters`). -/
structure LoopState where
  offset : Nat
  record : Record
  yielded : List Record
  starts : List Nat
  iters : Nat
deriving DecidableEq

/-- The `while (offset < size)` loop of `parse_file` (lines 114-134), allowed
to enter its body at most `fuel` times; `none` when that allowance is used up
with the loop still running. -/
def parse_loop (buffer : List Nat) (size : Nat) : Nat → LoopState → Option LoopState
  | fuel, s =>
    if s.offset < size then
      match fuel with
      | 0 => none
      | fuel + 1 =>
        if rd buffer s.offset = 0xFF then
          some { s with iters := s.iters + 1 }
        else
          let res := parse_record (buffer.drop s.offset) (size - s.offset) s.record
          if res.status ≠ 0 then
            some { s with record := res.record, iters := s.iters + 1 }
          else
            parse_loop buffer size fuel
              { offset := s.offset +
                  (rd buffer s.offset + 6 + rd buffer (s.offset + rd buffer s.offset + 5)),
                record := res.record,
                yielded := s.yielded ++ [res.record],
                starts := s.starts ++ [s.offset],
                iters := s.iters + 1 }
    else some s

/-- The state in which `parse_file` enters its loop: `offset = 0` and the
record variable holding whatever `r0` the stack held. -/
def loopInit (r0 : Record) : LoopState :=
  { offset := 0, record := r0, yielded := [], starts := [], iters := 0 }

/-- What `parse_file` returns, with the records its loop went through. -/
structure FileResult where
  status : Int
  yielded : List Record
deriving DecidableEq

/-- The function `parse_file` (lines 95-137).  `file` is `none` when `fopen`
fails and the content of the file otherwise; `fread` stores at most
`MAX_SIZE` bytes of it at the start of `buffer`; `junk` is what the memory
holds after the bytes read, and `r0` the initial content of `rec`.  The loop
runs with an allowance of `size` iterations. -/
def parse_file (file : Option (List Nat)) (junk : List Nat) (r0 : Record) : Option FileResult :=
  match file with
  | none => some { status := -1, yielded := [] }
  | some content =>
    let size := (content.take MAX_SIZE).length
    let buffer := content.take MAX_SIZE ++ junk
    if size = 0 then some { status := -1, yielded := [] }
    else
      (parse_loop buffer size size (loopInit r0)).map
        (fun s => { status := 0, yielded := s.yielded })

/-- The wire form of one record: length byte, name, four value bytes, length
byte, description (the layout `parse_record` reads). -/
def encode (name value desc : List Nat) : List Nat :=
  [name.length] ++ name ++ value ++ [desc.length] ++ desc

/-- Every element is a byte. -/
def isBytes (l : List Nat) : Prop := ∀ b ∈ l, b < 256

instance (l : List Nat) : Decidable (isBytes l) := by
  unfold isBytes; exact inferInstance

/-- A record as it stands on the wire: name bytes, four value bytes,
description bytes. -/
structure Item where
  name : List Nat
  value : List Nat
  desc : List Nat
deriving DecidableEq

/-- A wire record that fits a `Record`: a name shorter than 64, four value
bytes, a description of at most 255 bytes. -/
def Item.valid (e : Item) : Prop :=
  e.name.length < 64 ∧ e.value.length = 4 ∧ e.desc.length < 256 ∧
    isBytes e.name ∧ isBytes e.value ∧ isBytes e.desc

instance (e : Item) : Decidable e.valid := by
  unfold Item.valid; exact inferInstance

/-- The concatenation of the encodings of a list of wire records. -/
def encodeAll : List Item → List Nat
  | [] => []
  | e :: es => encode e.name e.value e.desc ++ encodeAll es

/-- Four bytes, least significant first, as a signed 32-bit integer. -/
def le_int32 (v : List Nat) : Int :=
  if v.getD 0 0 + 256 * v.getD 1 0 + 65536 * v.getD 2 0 + 16777216 * v.getD 3 0 < 2147483648
  then ((v.getD 0 0 + 256 * v.getD 1 0 + 65536 * v.getD 2 0 + 16777216 * v.getD 3 0 : Nat) : Int)
  else ((v.getD 0 0 + 256 * v.getD 1 0 + 65536 * v.getD 2 0 + 16777216 * v.getD 3 0 : Nat) : Int)
    - 4294967296

/-- The record `r` holds the wire record `e`: name and description as NUL
terminated strings at the front of their arrays, and the value. -/
def Record.holds (r : Record) (e : Item) : Prop :=
  r.name.take (e.name.length + 1) = e.name ++ [0] ∧
  r.value = le_int32 e.value ∧
  r.description.take (e.desc.length + 1) = e.desc ++ [0]

instance (r : Record) (e : Item) : Decidable (r.holds e) := by
  unfold Record.holds; exact inferInstance

end SimpleParser

namespace SimpleParser

/-! ## Loads and copies -/

theorem rd_lt (data : List Nat) (i : Nat) : rd data i < 256 :=
  Nat.mod_lt _ (by decide)

theorem rd_drop (data : List Nat) (k i : Nat) : rd (data.drop k) i = rd data (k + i) := by
  simp [rd, List.getD_eq_getElem?_getD, List.getElem?_drop]

theorem rd_append_right (p rest : List Nat) (i : Nat) :
    rd (p ++ rest) (p.length + i) = rd rest i := by
  simp [rd, List.getD_eq_getElem?_getD, List.getElem?_append_right]

theorem rd_append_left {p : List Nat} (rest : List Nat) {i : Nat} (h : i < p.length)
    (hb : isBytes p) : rd (p ++ rest) i = p[i] := by
  have hlt : p[i] < 256 := hb _ (List.getElem_mem h)
  simp [rd, List.getD_eq_getElem?_getD, List.getElem?_append_left h,
    List.getElem?_eq_getElem h, Nat.mod_eq_of_lt hlt]

theorem length_memcpy (dst src : List Nat) (n : Nat) :
    (memcpy dst src n).length = dst.length := by
  induction n with
  | zero => rfl
  | succ n ih => simp [memcpy, ih]

theorem getElem?_memcpy (dst src : List Nat) (n i : Nat) :
    (memcpy dst src n)[i]? =
      if i < n then (if i < dst.length then some (rd src i) else none) else dst[i]? := by
  induction n with
  | zero => simp [memcpy]
  | succ n ih =>
    simp only [memcpy, List.getElem?_set, length_memcpy, ih]
    by_cases h1 : n = i
    · subst h1; simp
    · by_cases h2 : i < n
      · have : i < n + 1 := by omega
        simp [h1, h2, this]
      · have : ¬ i < n + 1 := by omega
        simp [h1, h2, this]

/-- A copy of the bytes `p` from the front of the source, followed by the
store of the terminator, leaves `p ++ [0]` at the front of the array. -/
theorem take_memcpy_set (dst p rest : List Nat) (hb : isBytes p) (h : p.length < dst.length) :
    ((memcpy dst (p ++ rest) p.length).set p.length 0).take (p.length + 1) = p ++ [0] := by
  apply List.ext_getElem?
  intro i
  simp only [List.getElem?_take, List.getElem?_set, length_memcpy, getElem?_memcpy]
  by_cases h1 : i < p.length
  · have h2 : i < p.length + 1 := by omega
    have h3 : p.length ≠ i := by omega
    have h4 : i < dst.length := by omega
    simp [h1, h2, h3, h4, rd_append_left rest h1 hb, List.getElem?_append_left h1]
  · by_cases h2 : i = p.length
    · subst h2
      simp [h]
    · have h3 : ¬ i < p.length + 1 := by omega
      have h4 : p.length ≤ i := by omega
      rw [if_neg h3, List.getElem?_append_right h4]
      have : i - p.length ≠ 0 := by omega
      cases hk : i - p.length with
      | zero => omega
      | succ k => simp

theorem rd_append_lt (p rest : List Nat) {i : Nat} (h : i < p.length) :
    rd (p ++ rest) i = rd p i := by
  simp [rd, List.getD_eq_getElem?_getD, List.getElem?_append_left h]

theorem read_int_append (v rest : List Nat) (hv : v.length = 4) :
    read_int (v ++ rest) = read_int v := by
  simp only [read_int]
  rw [rd_append_lt v rest (by omega : 0 < v.length), rd_append_lt v rest (by omega : 1 < v.length),
    rd_append_lt v rest (by omega : 2 < v.length), rd_append_lt v rest (by omega : 3 < v.length)]

/-! ## The four ways through `parse_record` -/

theorem parse_record_tiny (data : List Nat) (size : Nat) (r : Record) (h : size < 4) :
    parse_record data size r =
      { status := -1, record := r, reads := [], nameWrites := [], descWrites := [] } := by
  simp [parse_record, h]

theorem parse_record_short (data : List Nat) (size : Nat) (r : Record) (h4 : 4 ≤ size)
    (h : size < rd data 0 + 5) :
    parse_record data size r =
      { status := -1,
        record := { r with name := (memcpy r.name (data.drop 1) (rd data 0)).set (rd data 0) 0 },
        reads := 0 :: span 1 (rd data 0),
        nameWrites := span 0 (rd data 0) ++ [rd data 0],
        descWrites := [] } := by
  have h4 : ¬ size < 4 := by omega
  simp [parse_record, h4, h]

theorem parse_record_cut (data : List Nat) (size : Nat) (r : Record) (h4 : 4 ≤ size)
    (h5 : rd data 0 + 5 ≤ size) (h : size < rd data 0 + rd data (rd data 0 + 5) + 6) :
    parse_record data size r =
      { status := 0,
        record := { name := (memcpy r.name (data.drop 1) (rd data 0)).set (rd data 0) 0,
                    value := read_int (data.drop (rd data 0 + 1)),
                    description := r.description },
        reads := (0 :: span 1 (rd data 0)) ++ span (rd data 0 + 1) 4 ++ [rd data 0 + 5],
        nameWrites := span 0 (rd data 0) ++ [rd data 0],
        descWrites := [] } := by
  have h4 : ¬ size < 4 := by omega
  have h5 : ¬ size < rd data 0 + 5 := by omega
  have h6 : ¬ size ≥ rd data 0 + rd data (rd data 0 + 5) + 6 := by omega
  simp only [parse_record, if_neg h4, if_neg h5, if_neg h6]

theorem parse_record_full (data : List Nat) (size : Nat) (r : Record) (h4 : 4 ≤ size)
    (h : rd data 0 + rd data (rd data 0 + 5) + 6 ≤ size) :
    parse_record data size r =
      { status := 0,
        record := { name := (memcpy r.name (data.drop 1) (rd data 0)).set (rd data 0) 0,
                    value := read_int (data.drop (rd data 0 + 1)),
                    description :=
                      (memcpy r.description (data.drop (rd data 0 + 6))
                        (rd data (rd data 0 + 5))).set (rd data (rd data 0 + 5)) 0 },
        reads := (0 :: span 1 (rd data 0)) ++ span (rd data 0 + 1) 4 ++ [rd data 0 + 5]
                  ++ span (rd data 0 + 6) (rd data (rd data 0 + 5)),
        nameWrites := span 0 (rd data 0) ++ [rd data 0],
        descWrites := span 0 (rd data (rd data 0 + 5)) ++ [rd data (rd data 0 + 5)] } := by
  have h4 : ¬ size < 4 := by omega
  have h5 : ¬ size < rd data 0 + 5 := by omega
  have h6 : size ≥ rd data 0 + rd data (rd data 0 + 5) + 6 := by omega
  simp only [parse_record, if_neg h4, if_neg h5, if_pos h6]

/-- The status of `parse_record` depends on `size` and the first byte only. -/
theorem parse_record_status (data : List Nat) (size : Nat) (r : Record) :
    (parse_record data size r).status = if size < 4 ∨ size < rd data 0 + 5 then -1 else 0 := by
  by_cases h4 : size < 4
  · simp [parse_record_tiny data size r h4, h4]
  · by_cases h5 : size < rd data 0 + 5
    · rw [parse_record_short data size r (by omega) h5]; simp [h5]
    · by_cases h6 : size < rd data 0 + rd data (rd data 0 + 5) + 6
      · rw [parse_record_cut data size r (by omega) (by omega) h6]; simp [h4, h5]
      · rw [parse_record_full data size r (by omega) (by omega)]; simp [h4, h5]

/-! ## The layout of an encoded record -/

theorem length_encode (name value desc : List Nat) :
    (encode name value desc).length = 1 + name.length + value.length + 1 + desc.length := by
  simp [encode]; omega

theorem rd_encode_zero (name value desc rest : List Nat) (hn : name.length < 256) :
    rd (encode name value desc ++ rest) 0 = name.length := by
  simp [encode, rd, Nat.mod_eq_of_lt hn]

theorem drop_one_encode (name value desc rest : List Nat) :
    (encode name value desc ++ rest).drop 1 = name ++ (value ++ [desc.length] ++ desc ++ rest) := by
  simp [encode]

theorem drop_value_encode (name value desc rest : List Nat) :
    (encode name value desc ++ rest).drop (name.length + 1) =
      value ++ ([desc.length] ++ desc ++ rest) := by
  have : encode name value desc ++ rest
      = ([name.length] ++ name) ++ (value ++ ([desc.length] ++ desc ++ rest)) := by
    simp [encode]
  rw [this]
  have hl : ([name.length] ++ name).length = name.length + 1 := by simp
  rw [← hl, List.drop_left]

theorem drop_desc_encode (name value desc rest : List Nat) (hv : value.length = 4) :
    (encode name value desc ++ rest).drop (name.length + 6) = desc ++ rest := by
  have : encode name value desc ++ rest
      = ([name.length] ++ name ++ value ++ [desc.length]) ++ (desc ++ rest) := by
    simp [encode]
  rw [this]
  have hl : ([name.length] ++ name ++ value ++ [desc.length]).length = name.length + 6 := by
    simp [hv]
  rw [← hl, List.drop_left]

theorem rd_encode_desc_len (name value desc rest : List Nat) (hv : value.length = 4)
    (hd : desc.length < 256) :
    rd (encode name value desc ++ rest) (name.length + 5) = desc.length := by
  have : encode name value desc ++ rest
      = ([name.length] ++ name ++ value) ++ ([desc.length] ++ desc ++ rest) := by
    simp [encode]
  rw [this]
  have hl : ([name.length] ++ name ++ value).length = name.length + 5 := by
    simp [hv]
  have := rd_append_right ([name.length] ++ name ++ value) ([desc.length] ++ desc ++ rest) 0
  rw [hl] at this
  rw [Nat.add_zero] at this
  rw [this]
  simp [rd, Nat.mod_eq_of_lt hd]

/-- The decoder on a buffer that starts with a well-formed encoded record and
declares at least that many bytes: the call returns 0 with exactly this record. -/
theorem parse_record_encode (name value desc rest : List Nat) (size : Nat) (r : Record)
    (hn : name.length < 256) (hv : value.length = 4) (hd : desc.length < 256)
    (hs : (encode name value desc).length ≤ size) :
    parse_record (encode name value desc ++ rest) size r =
      { status := 0,
        record := { name := (memcpy r.name (name ++ (value ++ [desc.length] ++ desc ++ rest))
                      name.length).set name.length 0,
                    value := read_int value,
                    description := (memcpy r.description (desc ++ rest) desc.length).set
                      desc.length 0 },
        reads := (0 :: span 1 name.length) ++ span (name.length + 1) 4 ++ [name.length + 5]
                  ++ span (name.length + 6) desc.length,
        nameWrites := span 0 name.length ++ [name.length],
        descWrites := span 0 desc.length ++ [desc.length] } := by
  rw [length_encode] at hs
  have h0 := rd_encode_zero name value desc rest hn
  have hdl := rd_encode_desc_len name value desc rest hv hd
  rw [parse_record_full _ size r (by omega) (by rw [h0, hdl]; omega)]
  rw [h0, hdl, drop_one_encode, drop_value_encode, drop_desc_encode name value desc rest hv,
    read_int_append value _ hv]

theorem mem_span (base n i : Nat) : i ∈ span base n ↔ base ≤ i ∧ i < base + n := by
  simp only [span, List.mem_map, List.mem_range]
  constructor
  · rintro ⟨k, hk, rfl⟩; omega
  · rintro ⟨h1, h2⟩; exact ⟨i - base, by omega, by omega⟩

theorem toInt32_of_lt (u : Nat) (h : u < 4294967296) :
    toInt32 u = if u < 2147483648 then (u : Int) else (u : Int) - 4294967296 := by
  simp [toInt32, Nat.mod_eq_of_lt h]

/-! ## Round trip of one record -/

/-- C1: for a name of fewer than 64 bytes, four value bytes and a description
of at most 255 bytes, `parse_record` on exactly the encoding
`[name_len] ++ name ++ value ++ [desc_len] ++ description`, with `size` its
length, returns 0, leaves the name followed by a NUL at the front of
`rec->name`, the description followed by a NUL at the front of
`rec->description`, and the four value bytes read little-endian as a signed
32-bit integer in `rec->value`; every access it makes is inside the buffer and
inside the arrays. -/
theorem parse_record_roundtrip (name desc : List Nat) (b0 b1 b2 b3 : Nat) (r : Record)
    (hr : r.wf) (hn : name.length < 64) (hd : desc.length < 256)
    (bn : isBytes name) (bd : isBytes desc)
    (hb : b0 < 256 ∧ b1 < 256 ∧ b2 < 256 ∧ b3 < 256) :
    (parse_record ([name.length] ++ name ++ [b0, b1, b2, b3] ++ [desc.length] ++ desc)
        (1 + name.length + 4 + 1 + desc.length) r).status = 0 ∧
    (parse_record ([name.length] ++ name ++ [b0, b1, b2, b3] ++ [desc.length] ++ desc)
        (1 + name.length + 4 + 1 + desc.length) r).record.name.take (name.length + 1)
      = name ++ [0] ∧
    (parse_record ([name.length] ++ name ++ [b0, b1, b2, b3] ++ [desc.length] ++ desc)
        (1 + name.length + 4 + 1 + desc.length) r).record.description.take (desc.length + 1)
      = desc ++ [0] ∧
    (parse_record ([name.length] ++ name ++ [b0, b1, b2, b3] ++ [desc.length] ++ desc)
        (1 + name.length + 4 + 1 + desc.length) r).record.value
      = (if b0 + 256 * b1 + 65536 * b2 + 16777216 * b3 < 2147483648
          then ((b0 + 256 * b1 + 65536 * b2 + 16777216 * b3 : Nat) : Int)
          else ((b0 + 256 * b1 + 65536 * b2 + 16777216 * b3 : Nat) : Int) - 4294967296) ∧
    (∀ i ∈ (parse_record ([name.length] ++ name ++ [b0, b1, b2, b3] ++ [desc.length] ++ desc)
        (1 + name.length + 4 + 1 + desc.length) r).reads,
      i < 1 + name.length + 4 + 1 + desc.length) ∧
    (∀ i ∈ (parse_record ([name.length] ++ name ++ [b0, b1, b2, b3] ++ [desc.length] ++ desc)
        (1 + name.length + 4 + 1 + desc.length) r).nameWrites, i < 64) ∧
    (∀ i ∈ (parse_record ([name.length] ++ name ++ [b0, b1, b2, b3] ++ [desc.length] ++ desc)
        (1 + name.length + 4 + 1 + desc.length) r).descWrites, i < 256) := by
  obtain ⟨h0, h1, h2, h3⟩ := hb
  have hl : (encode name [b0, b1, b2, b3] desc).length ≤ 1 + name.length + 4 + 1 + desc.length := by
    rw [length_encode]; simp
  have key := parse_record_encode name [b0, b1, b2, b3] desc [] _ r (by omega) rfl hd hl
  have he : encode name [b0, b1, b2, b3] desc ++ []
      = [name.length] ++ name ++ [b0, b1, b2, b3] ++ [desc.length] ++ desc := by
    simp [encode]
  rw [he] at key
  rw [key]
  refine ⟨rfl, ?_, ?_, ?_, ?_, ?_, ?_⟩
  · exact take_memcpy_set r.name name _ bn (by rw [hr.1]; exact hn)
  · exact take_memcpy_set r.description desc _ bd (by rw [hr.2]; exact hd)
  · show read_int [b0, b1, b2, b3] = _
    have e0 : rd [b0, b1, b2, b3] 0 = b0 := by simp [rd, Nat.mod_eq_of_lt h0]
    have e1 : rd [b0, b1, b2, b3] 1 = b1 := by simp [rd, Nat.mod_eq_of_lt h1]
    have e2 : rd [b0, b1, b2, b3] 2 = b2 := by simp [rd, Nat.mod_eq_of_lt h2]
    have e3 : rd [b0, b1, b2, b3] 3 = b3 := by simp [rd, Nat.mod_eq_of_lt h3]
    rw [read_int, e0, e1, e2, e3]
    exact toInt32_of_lt _ (by omega)
  · intro i hi
    simp only [List.mem_append, List.mem_cons, mem_span, List.mem_singleton,
      List.not_mem_nil, or_false] at hi
    omega
  · intro i hi
    simp only [List.mem_append, mem_span, List.mem_singleton] at hi
    omega
  · intro i hi
    simp only [List.mem_append, mem_span, List.mem_singleton] at hi
    omega

theorem filledRecord_wf (c : Nat) : (filledRecord c).wf :=
  ⟨by simp only [filledRecord, List.length_replicate],
    by simp only [filledRecord, List.length_replicate]⟩

/-- C1 at the record `abc`, value 1, empty description. -/
theorem parse_record_roundtrip_witness :
    (filledRecord 7).wf ∧ [97, 98, 99].length < 64 ∧ ([] : List Nat).length < 256 ∧
    isBytes [97, 98, 99] ∧ isBytes [] ∧ (1 < 256 ∧ 0 < 256 ∧ 0 < 256 ∧ 0 < 256) ∧
    (parse_record ([3] ++ [97, 98, 99] ++ [1, 0, 0, 0] ++ [0] ++ []) (1 + 3 + 4 + 1 + 0)
        (filledRecord 7)).status = 0 ∧
    (parse_record ([3] ++ [97, 98, 99] ++ [1, 0, 0, 0] ++ [0] ++ []) (1 + 3 + 4 + 1 + 0)
        (filledRecord 7)).record.name.take (3 + 1) = [97, 98, 99] ++ [0] ∧
    (parse_record ([3] ++ [97, 98, 99] ++ [1, 0, 0, 0] ++ [0] ++ []) (1 + 3 + 4 + 1 + 0)
        (filledRecord 7)).record.description.take (0 + 1) = [] ++ [0] ∧
    (parse_record ([3] ++ [97, 98, 99] ++ [1, 0, 0, 0] ++ [0] ++ []) (1 + 3 + 4 + 1 + 0)
        (filledRecord 7)).record.value = 1 :=
  have h := parse_record_roundtrip [97, 98, 99] [] 1 0 0 0 (filledRecord 7)
    (filledRecord_wf 7) (by decide) (by decide) (by decide) (by decide) (by decide)
  ⟨filledRecord_wf 7, by decide, by decide, by decide, by decide, by decide,
    h.1, h.2.1, h.2.2.1, h.2.2.2.1⟩

/-! ## The two decoders compared -/

/-- C10: when the first byte is below 64, `parse_record_safe` and
`parse_record` return the same status and leave the same record (and make the
same accesses), for every buffer, declared size and initial record; and the
description-length clamp of `parse_record_safe` never changes a length, since
a loaded byte is below 256. -/
theorem parse_record_safe_eq_parse_record (data : List Nat) (size : Nat) (r : Record)
    (h : rd data 0 < 64) :
    parse_record_safe data size r = parse_record data size r ∧
    ∀ k, (if rd data k ≥ 256 then 256 - 1 else rd data k) = rd data k := by
  have hc : ∀ k, (if rd data k ≥ 256 then 256 - 1 else rd data k) = rd data k := by
    intro k
    have := rd_lt data k
    rw [if_neg (by omega)]
  refine ⟨?_, hc⟩
  have hn : (if rd data 0 ≥ 64 then 64 - 1 else rd data 0) = rd data 0 := by
    rw [if_neg (by omega)]
  simp only [parse_record_safe, parse_record, hn, hc]

/-- C10 at the record `abc`, value 1, empty description. -/
theorem parse_record_safe_eq_parse_record_witness :
    rd [3, 97, 98, 99, 1, 0, 0, 0, 0] 0 < 64 ∧
    parse_record_safe [3, 97, 98, 99, 1, 0, 0, 0, 0] 9 (filledRecord 7)
      = parse_record [3, 97, 98, 99, 1, 0, 0, 0, 0] 9 (filledRecord 7) :=
  ⟨by decide,
    (parse_record_safe_eq_parse_record [3, 97, 98, 99, 1, 0, 0, 0, 0] 9 (filledRecord 7)
      (by decide)).1⟩

/-- A copy of `n` bytes followed by the store of the terminator, inside the
array: the front of the array is the `n` source bytes and a NUL. -/
theorem take_memcpy_set_range (dst src : List Nat) (n : Nat) (h : n < dst.length) :
    ((memcpy dst src n).set n 0).take (n + 1) = (List.range n).map (rd src) ++ [0] := by
  apply List.ext_getElem?
  intro i
  simp only [List.getElem?_take, List.getElem?_set, length_memcpy, getElem?_memcpy]
  by_cases h1 : i < n
  · have h2 : i < n + 1 := by omega
    have h3 : n ≠ i := by omega
    have h4 : i < dst.length := by omega
    rw [List.getElem?_append_left (by simpa using h1)]
    simp [h1, h2, h3, h4, List.getElem?_range h1]
  · by_cases h2 : i = n
    · subst h2
      rw [List.getElem?_append_right (by simp)]
      simp [h]
    · have h3 : ¬ i < n + 1 := by omega
      rw [if_neg h3, List.getElem?_append_right (by simp; omega)]
      cases hk : i - ((List.range n).map (rd src)).length with
      | zero => simp at hk; omega
      | succ k => simp

/-! ## The ways through `parse_record_safe` -/

theorem parse_record_safe_tiny (data : List Nat) (size : Nat) (r : Record) (h : size < 4) :
    parse_record_safe data size r =
      { status := -1, record := r, reads := [], nameWrites := [], descWrites := [] } := by
  simp [parse_record_safe, h]

theorem parse_record_safe_short (data : List Nat) (size : Nat) (r : Record) (n : Nat)
    (hn : (if rd data 0 ≥ 64 then 64 - 1 else rd data 0) = n) (h4 : 4 ≤ size)
    (h : size < n + 5) :
    parse_record_safe data size r =
      { status := -1,
        record := { r with name := (memcpy r.name (data.drop 1) n).set n 0 },
        reads := 0 :: span 1 n,
        nameWrites := span 0 n ++ [n],
        descWrites := [] } := by
  have h4 : ¬ size < 4 := by omega
  subst hn
  simp only [parse_record_safe, if_neg h4, if_pos h]

theorem parse_record_safe_long (data : List Nat) (size : Nat) (r : Record) (n : Nat)
    (hn : (if rd data 0 ≥ 64 then 64 - 1 else rd data 0) = n) (h4 : 4 ≤ size)
    (h : n + 5 ≤ size) :
    parse_record_safe data size r =
      if size ≥ n + rd data (n + 5) + 6 then
        { status := 0,
          record := { name := (memcpy r.name (data.drop 1) n).set n 0,
                      value := read_int (data.drop (n + 1)),
                      description :=
                        (memcpy r.description (data.drop (n + 6))
                          (rd data (n + 5))).set (rd data (n + 5)) 0 },
          reads := (0 :: span 1 n) ++ span (n + 1) 4 ++ [n + 5]
                    ++ span (n + 6) (rd data (n + 5)),
          nameWrites := span 0 n ++ [n],
          descWrites := span 0 (rd data (n + 5)) ++ [rd data (n + 5)] }
      else
        { status := 0,
          record := { name := (memcpy r.name (data.drop 1) n).set n 0,
                      value := read_int (data.drop (n + 1)),
                      description := r.description },
          reads := (0 :: span 1 n) ++ span (n + 1) 4 ++ [n + 5],
          nameWrites := span 0 n ++ [n],
          descWrites := [] } := by
  have h4 : ¬ size < 4 := by omega
  have h5 : ¬ size < n + 5 := by omega
  have hc : (if rd data (n + 5) ≥ 256 then 256 - 1 else rd data (n + 5)) = rd data (n + 5) := by
    have := rd_lt data (n + 5)
    rw [if_neg (by omega)]
  subst hn
  simp only [parse_record_safe, if_neg h4, if_neg h5]
  simp only [hc]

/-- The status of `parse_record_safe`, from `size` and the clamped name length. -/
theorem parse_record_safe_status (data : List Nat) (size : Nat) (r : Record) (n : Nat)
    (hn : (if rd data 0 ≥ 64 then 64 - 1 else rd data 0) = n) :
    (parse_record_safe data size r).status = if size < 4 ∨ size < n + 5 then -1 else 0 := by
  by_cases h4 : size < 4
  · simp [parse_record_safe_tiny data size r h4, h4]
  · by_cases h5 : size < n + 5
    · rw [parse_record_safe_short data size r n hn (by omega) h5]; simp [h5]
    · rw [parse_record_safe_long data size r n hn (by omega) (by omega)]
      split <;> simp [h4, h5]

/-- The name array and the log of its stores after `parse_record_safe`, from
the clamped name length. -/
theorem parse_record_safe_name (data : List Nat) (size : Nat) (r : Record) (n : Nat)
    (hn : (if rd data 0 ≥ 64 then 64 - 1 else rd data 0) = n) (h4 : 4 ≤ size) :
    (parse_record_safe data size r).record.name = (memcpy r.name (data.drop 1) n).set n 0 ∧
    (parse_record_safe data size r).nameWrites = span 0 n ++ [n] := by
  by_cases h5 : size < n + 5
  · rw [parse_record_safe_short data size r n hn h4 h5]
    exact ⟨rfl, rfl⟩
  · rw [parse_record_safe_long data size r n hn h4 (by omega)]
    split
    · exact ⟨rfl, rfl⟩
    · exact ⟨rfl, rfl⟩

/-- The loads of `parse_record_safe` stay inside the declared buffer when the
name bytes lie inside it and the size is not exactly the clamped name length
plus 5. -/
theorem parse_record_safe_reads_lt (data : List Nat) (size : Nat) (r : Record) (n : Nat)
    (hn : (if rd data 0 ≥ 64 then 64 - 1 else rd data 0) = n) (h1 : n + 1 ≤ size)
    (h2 : size ≠ n + 5) (h4 : 4 ≤ size) :
    ∀ i ∈ (parse_record_safe data size r).reads, i < size := by
  intro i hi
  by_cases h5 : size < n + 5
  · rw [parse_record_safe_short data size r n hn h4 h5] at hi
    simp only [List.mem_cons, mem_span] at hi
    omega
  · rw [parse_record_safe_long data size r n hn h4 (by omega)] at hi
    split at hi
    · simp only [List.mem_append, List.mem_cons, mem_span, List.mem_singleton,
        List.not_mem_nil, or_false] at hi
      omega
    · simp only [List.mem_append, List.mem_cons, mem_span, List.mem_singleton,
        List.not_mem_nil, or_false] at hi
      omega

/-! ## Oversized names in `parse_record_safe` -/

/-- C3, as the code has it: a first byte of 64 or more is clamped to 63, not
rejected.  For every such buffer and well-formed record, `parse_record_safe`
returns -1 when `size < 68` and 0 when `size >= 69`; and when the 63 name
bytes lie inside the declared buffer (`size >= 64`, `size` other than 68) it
stores the bytes `data[1..63]` and a NUL at index 63 into `rec->name`, every
store inside the array and every load inside the declared buffer. -/
theorem parse_record_safe_clamps_name (data : List Nat) (size : Nat) (r : Record)
    (hr : r.wf) (h : 64 ≤ rd data 0) :
    (size < 68 → (parse_record_safe data size r).status = -1) ∧
    (69 ≤ size → (parse_record_safe data size r).status = 0) ∧
    (64 ≤ size → size ≠ 68 →
      (parse_record_safe data size r).record.name
          = (List.range 63).map (fun i => rd data (1 + i)) ++ [0] ∧
      (parse_record_safe data size r).nameWrites = span 0 63 ++ [63] ∧
      (∀ i ∈ (parse_record_safe data size r).nameWrites, i < 64) ∧
      (∀ i ∈ (parse_record_safe data size r).reads, i < size)) := by
  have hn : (if rd data 0 ≥ 64 then 64 - 1 else rd data 0) = 63 := by
    rw [if_pos h]
  have hlen : (63 : Nat) < r.name.length := by rw [hr.1]; decide
  have hname : (memcpy r.name (data.drop 1) 63).set 63 0
      = (List.range 63).map (fun i => rd data (1 + i)) ++ [0] := by
    have h1 := take_memcpy_set_range r.name (data.drop 1) 63 hlen
    have h2 : ((memcpy r.name (data.drop 1) 63).set 63 0).length = 63 + 1 := by
      rw [List.length_set, length_memcpy, hr.1]
    rw [← h2, List.take_length] at h1
    rw [h1]
    have hf : rd (data.drop 1) = fun i => rd data (1 + i) := funext (rd_drop data 1)
    rw [hf]
  refine ⟨?_, ?_, ?_⟩
  · intro h5
    rw [parse_record_safe_status data size r 63 hn, if_pos (by omega)]
  · intro h5
    rw [parse_record_safe_status data size r 63 hn, if_neg (by omega)]
  · intro h64 h68
    have hk := parse_record_safe_name data size r 63 hn (by omega)
    refine ⟨by rw [hk.1, hname], hk.2, ?_,
      parse_record_safe_reads_lt data size r 63 hn (by omega) (by omega) (by omega)⟩
    intro i hi
    rw [hk.2] at hi
    simp only [List.mem_append, mem_span, List.mem_singleton] at hi
    omega

/-- The amended C3 at the buffer `[0x40, 63 filler bytes]` of the specification,
declared with its 64 bytes: the call returns -1, after filling `rec->name`
with the 63 filler bytes and a NUL. -/
theorem parse_record_safe_clamps_name_witness :
    (filledRecord 0).wf ∧ 64 ≤ rd (64 :: List.replicate 63 65) 0 ∧
    (parse_record_safe (64 :: List.replicate 63 65) 64 (filledRecord 0)).status = -1 ∧
    (parse_record_safe (64 :: List.replicate 63 65) 64 (filledRecord 0)).nameWrites
      = span 0 63 ++ [63] := by
  have h := parse_record_safe_clamps_name (64 :: List.replicate 63 65) 64 (filledRecord 0)
      (filledRecord_wf 0) (by simp [rd])
  exact ⟨filledRecord_wf 0, by simp [rd], h.1 (by decide),
    (h.2.2 (by decide) (by decide)).2.1⟩

/-- C3 as stated fails: on a 70-byte buffer whose first byte is 64, declared
with its 70 bytes, `parse_record_safe` returns 0 and not -1, with every load
inside the buffer. -/
theorem parse_record_safe_accepts_oversized :
    (64 :: List.replicate 69 65).length = 70 ∧
    64 ≤ rd (64 :: List.replicate 69 65) 0 ∧
    (parse_record_safe (64 :: List.replicate 69 65) 70 (filledRecord 0)).status = 0 ∧
    (parse_record_safe (64 :: List.replicate 69 65) 70 (filledRecord 0)).status ≠ -1 ∧
    (∀ i ∈ (parse_record_safe (64 :: List.replicate 69 65) 70 (filledRecord 0)).reads,
      i < 70) := by
  have h0 : rd (64 :: List.replicate 69 65) 0 = 64 := by simp [rd]
  have hn : (if rd (64 :: List.replicate 69 65) 0 ≥ 64 then 64 - 1
      else rd (64 :: List.replicate 69 65) 0) = 63 := by rw [h0]; rfl
  have hs := parse_record_safe_status (64 :: List.replicate 69 65) 70 (filledRecord 0) 63 hn
  rw [if_neg (by decide)] at hs
  refine ⟨by simp, by rw [h0], hs, ?_,
    parse_record_safe_reads_lt _ 70 (filledRecord 0) 63 hn (by decide) (by decide) (by decide)⟩
  rw [hs]; decide

/-! ## Stores of `parse_record` into the record -/

/-- The stores of `parse_record` into `rec->name`: indices `0 .. name_len`. -/
theorem parse_record_nameWrites (data : List Nat) (size : Nat) (r : Record) (h4 : 4 ≤ size) :
    (parse_record data size r).nameWrites = span 0 (rd data 0) ++ [rd data 0] := by
  by_cases h5 : size < rd data 0 + 5
  · rw [parse_record_short data size r h4 h5]
  · by_cases h6 : size < rd data 0 + rd data (rd data 0 + 5) + 6
    · rw [parse_record_cut data size r h4 (by omega) h6]
    · rw [parse_record_full data size r h4 (by omega)]

/-- The stores of `parse_record` into `rec->description` stay inside the array. -/
theorem parse_record_descWrites_lt (data : List Nat) (size : Nat) (r : Record) :
    ∀ i ∈ (parse_record data size r).descWrites, i < 256 := by
  intro i hi
  by_cases h4 : size < 4
  · rw [parse_record_tiny data size r h4] at hi; simp at hi
  · by_cases h5 : size < rd data 0 + 5
    · rw [parse_record_short data size r (by omega) h5] at hi; simp at hi
    · by_cases h6 : size < rd data 0 + rd data (rd data 0 + 5) + 6
      · rw [parse_record_cut data size r (by omega) (by omega) h6] at hi; simp at hi
      · rw [parse_record_full data size r (by omega) (by omega)] at hi
        have := rd_lt data (rd data 0 + 5)
        simp only [List.mem_append, mem_span, List.mem_singleton] at hi
        omega

/-- C2 at the failing input: on the 70-byte buffer `[64, 69 bytes]`, declared
with its 70 bytes, `parse_record` stores into `rec->name` at index 64, one past
the last element of the 64-byte array. -/
theorem parse_record_stores_past_name :
    (64 :: List.replicate 69 65).length = 70 ∧
    64 ∈ (parse_record (64 :: List.replicate 69 65) 70 (filledRecord 0)).nameWrites ∧
    ¬ (64 < (filledRecord 0).name.length) := by
  have h0 : rd (64 :: List.replicate 69 65) 0 = 64 := by simp [rd]
  refine ⟨by simp, ?_, ?_⟩
  · rw [parse_record_nameWrites _ 70 _ (by decide), h0]
    simp
  · rw [(filledRecord_wf 0).1]; decide

/-! ## Loads of `parse_record_safe` from the buffer -/

/-- C4 at the failing input: on a buffer of exactly five zero bytes, declared
with size 5, `parse_record_safe` returns 0 after loading `data[5]`, the byte
just behind the buffer. -/
theorem parse_record_safe_reads_past_end :
    ([0, 0, 0, 0, 0] : List Nat).length = 5 ∧
    (parse_record_safe [0, 0, 0, 0, 0] 5 (filledRecord 0)).status = 0 ∧
    (parse_record_safe [0, 0, 0, 0, 0] 5 (filledRecord 0)).reads = [0, 1, 2, 3, 4, 5] ∧
    ([0, 0, 0, 0, 0] : List Nat)[5]? = none := by
  refine ⟨rfl, ?_, ?_, rfl⟩
  · rw [parse_record_safe_long _ 5 _ 0 (by simp [rd]) (by decide) (by decide)]
    simp [rd]
  · rw [parse_record_safe_long _ 5 _ 0 (by simp [rd]) (by decide) (by decide)]
    simp [rd, span, List.range_succ]

/-! ## What a return of 0 from `parse_record` covers -/

/-- C7, as the code has it: `parse_record` returns 0 only if the name and the
value lie inside the declared buffer (`name_len + 5 <= size`), and it does
return 0 whenever the description length byte lies inside it too
(`name_len + 6 <= size`), also when the description payload is cut off.  After
a return of 0 with the whole record inside the buffer
(`name_len + 6 + desc_len <= size`), `rec->description` starts with the
`desc_len` payload bytes and a NUL; with the payload cut off and a name that
fits its array, `rec->description` is left as it was. -/
theorem parse_record_success_extent (data : List Nat) (size : Nat) (r : Record)
    (hr : r.wf) :
    ((parse_record data size r).status = 0 → rd data 0 + 5 ≤ size) ∧
    (rd data 0 + 6 ≤ size → (parse_record data size r).status = 0) ∧
    (rd data 0 + 6 + rd data (rd data 0 + 5) ≤ size →
      (parse_record data size r).record.description.take (rd data (rd data 0 + 5) + 1)
        = (List.range (rd data (rd data 0 + 5))).map (fun i => rd data (rd data 0 + 6 + i))
            ++ [0]) ∧
    (rd data 0 < 64 → rd data 0 + 6 ≤ size → size < rd data 0 + 6 + rd data (rd data 0 + 5) →
      (parse_record data size r).record.description = r.description) := by
  refine ⟨?_, ?_, ?_, ?_⟩
  · intro h
    rw [parse_record_status] at h
    have hs : ¬ (size < 4 ∨ size < rd data 0 + 5) := by
      intro hc
      rw [if_pos hc] at h
      exact absurd h (by decide)
    omega
  · intro h6
    rw [parse_record_status, if_neg (by omega)]
  · intro h6
    rw [parse_record_full data size r (by omega) (by omega)]
    have hlt : rd data (rd data 0 + 5) < r.description.length := by
      rw [hr.2]; exact rd_lt _ _
    have hf : rd (data.drop (rd data 0 + 6)) = fun i => rd data (rd data 0 + 6 + i) :=
      funext (rd_drop data (rd data 0 + 6))
    rw [← hf]
    exact take_memcpy_set_range r.description _ _ hlt
  · intro _ h6 h7
    rw [parse_record_cut data size r (by omega) (by omega) (by omega)]

/-- The amended C7 at the record `abc`, value 1, empty description. -/
theorem parse_record_success_extent_witness :
    (filledRecord 7).wf ∧
    ((parse_record [3, 97, 98, 99, 1, 0, 0, 0, 0] 9 (filledRecord 7)).status = 0 →
      rd [3, 97, 98, 99, 1, 0, 0, 0, 0] 0 + 5 ≤ 9) :=
  ⟨filledRecord_wf 7,
    (parse_record_success_extent [3, 97, 98, 99, 1, 0, 0, 0, 0] 9 (filledRecord 7)
      (filledRecord_wf 7)).1⟩

/-- C7 as stated fails: on `[0, 1, 0, 0, 0, 5]`, declared with size 6,
`parse_record` returns 0 although the record announces 5 description bytes and
would need 11 bytes, and `rec->description` is left untouched. -/
theorem parse_record_accepts_cut_description :
    (parse_record [0, 1, 0, 0, 0, 5] 6 (filledRecord 7)).status = 0 ∧
    rd [0, 1, 0, 0, 0, 5] 0 = 0 ∧ rd [0, 1, 0, 0, 0, 5] (0 + 5) = 5 ∧
    ¬ (1 + 0 + 4 + 1 + 5 ≤ 6) ∧
    (parse_record [0, 1, 0, 0, 0, 5] 6 (filledRecord 7)).record.description
      = (filledRecord 7).description := by
  have h0 : rd [0, 1, 0, 0, 0, 5] 0 = 0 := by simp [rd]
  have h5 : rd [0, 1, 0, 0, 0, 5] (0 + 5) = 5 := by simp [rd]
  have hp := parse_record_cut [0, 1, 0, 0, 0, 5] 6 (filledRecord 7) (by decide)
    (by rw [h0]; decide) (by rw [h0, h5]; decide)
  refine ⟨?_, h0, h5, by decide, ?_⟩
  · rw [hp]
  · rw [hp]

/-! ## The record loop of `parse_file` -/

theorem parse_loop_done (buffer : List Nat) (size fuel : Nat) (s : LoopState)
    (h : ¬ s.offset < size) : parse_loop buffer size fuel s = some s := by
  cases fuel <;> simp [parse_loop, h]

theorem parse_loop_marker (buffer : List Nat) (size fuel : Nat) (s : LoopState)
    (h : s.offset < size) (hm : rd buffer s.offset = 0xFF) :
    parse_loop buffer size (fuel + 1) s = some { s with iters := s.iters + 1 } := by
  simp [parse_loop, h, hm]

theorem parse_loop_fail (buffer : List Nat) (size fuel : Nat) (s : LoopState)
    (h : s.offset < size) (hm : rd buffer s.offset ≠ 0xFF)
    (hr : (parse_record (buffer.drop s.offset) (size - s.offset) s.record).status ≠ 0) :
    parse_loop buffer size (fuel + 1) s =
      some { s with
        record := (parse_record (buffer.drop s.offset) (size - s.offset) s.record).record,
        iters := s.iters + 1 } := by
  rw [parse_loop]
  simp only [if_pos h, if_neg hm]
  rw [if_pos hr]

theorem parse_loop_step (buffer : List Nat) (size fuel : Nat) (s : LoopState)
    (h : s.offset < size) (hm : rd buffer s.offset ≠ 0xFF)
    (hr : (parse_record (buffer.drop s.offset) (size - s.offset) s.record).status = 0) :
    parse_loop buffer size (fuel + 1) s =
      parse_loop buffer size fuel
        { offset := s.offset +
            (rd buffer s.offset + 6 + rd buffer (s.offset + rd buffer s.offset + 5)),
          record := (parse_record (buffer.drop s.offset) (size - s.offset) s.record).record,
          yielded := s.yielded ++
            [(parse_record (buffer.drop s.offset) (size - s.offset) s.record).record],
          starts := s.starts ++ [s.offset],
          iters := s.iters + 1 } := by
  rw [parse_loop]
  simp only [if_pos h, if_neg hm]
  rw [if_neg (by rw [hr]; decide)]

/-- A return of 0 at `offset` means the name and the value of the record that
starts there lie inside the declared buffer. -/
theorem parse_record_ok_extent (buffer : List Nat) (size o : Nat) (r : Record)
    (hr : (parse_record (buffer.drop o) (size - o) r).status = 0) :
    o + rd buffer o + 5 ≤ size := by
  rw [parse_record_status] at hr
  have hs : ¬ (size - o < 4 ∨ size - o < rd (buffer.drop o) 0 + 5) := by
    intro hc
    rw [if_pos hc] at hr
    exact absurd hr (by decide)
  have e := rd_drop buffer o 0
  rw [Nat.add_zero] at e
  omega

/-- The behaviour of the loop from any state: it stops within
`size - offset` further iterations, the offsets of the decoded records grow by
at least 6 from one to the next and are below `size`, and the cursor ends at
most 256 above `size`. -/
theorem parse_loop_inv (buffer : List Nat) (size : Nat) :
    ∀ (fuel : Nat) (s : LoopState), size - s.offset ≤ fuel →
      (∀ a ∈ s.starts, a + 6 ≤ s.offset ∧ a < size) →
      s.starts.Pairwise (fun a b => a + 6 ≤ b) →
      s.offset ≤ size + 256 →
      ∃ s', parse_loop buffer size fuel s = some s' ∧
        s'.iters ≤ s.iters + (size - s.offset) ∧
        (∀ a ∈ s'.starts, a + 6 ≤ s'.offset ∧ a < size) ∧
        s'.starts.Pairwise (fun a b => a + 6 ≤ b) ∧
        s'.offset ≤ size + 256 := by
  intro fuel
  induction fuel with
  | zero =>
    intro s hf h1 h2 h3
    have h : ¬ s.offset < size := by omega
    exact ⟨s, parse_loop_done buffer size 0 s h, by omega, h1, h2, h3⟩
  | succ fuel ih =>
    intro s hf h1 h2 h3
    by_cases h : s.offset < size
    · by_cases hm : rd buffer s.offset = 0xFF
      · exact ⟨_, parse_loop_marker buffer size fuel s h hm, by simp; omega, h1, h2, h3⟩
      · by_cases hr : (parse_record (buffer.drop s.offset) (size - s.offset) s.record).status = 0
        · have hext := parse_record_ok_extent buffer size s.offset s.record hr
          have hd := rd_lt buffer (s.offset + rd buffer s.offset + 5)
          rw [parse_loop_step buffer size fuel s h hm hr]
          obtain ⟨s', e, i1, i2, i3, i4⟩ := ih
            { offset := s.offset +
                (rd buffer s.offset + 6 + rd buffer (s.offset + rd buffer s.offset + 5)),
              record := (parse_record (buffer.drop s.offset) (size - s.offset) s.record).record,
              yielded := s.yielded ++
                [(parse_record (buffer.drop s.offset) (size - s.offset) s.record).record],
              starts := s.starts ++ [s.offset],
              iters := s.iters + 1 }
            (by simp only; omega)
            (by
              intro a ha
              simp only [List.mem_append, List.mem_singleton] at ha
              rcases ha with ha | ha
              · have := h1 a ha
                simp only; omega
              · subst ha
                simp only; omega)
            (by
              simp only
              rw [List.pairwise_append]
              refine ⟨h2, List.pairwise_singleton _ _, ?_⟩
              intro a ha b hb
              simp only [List.mem_singleton] at hb
              subst hb
              exact (h1 a ha).1)
            (by simp only; omega)
          refine ⟨s', e, ?_, i2, i3, i4⟩
          simp only at i1
          omega
        · exact ⟨_, parse_loop_fail buffer size fuel s h hm hr, by simp; omega, h1, h2, h3⟩
    · exact ⟨s, parse_loop_done buffer size _ s h, by omega, h1, h2, h3⟩

/-- The allowance of `size` iterations that `parse_file` gives its loop is
enough: the function returns a status on every file. -/
theorem parse_file_returns (file : Option (List Nat)) (junk : List Nat) (r0 : Record) :
    ∃ res, parse_file file junk r0 = some res := by
  cases file with
  | none => exact ⟨_, rfl⟩
  | some content =>
    simp only [parse_file]
    split
    · exact ⟨_, rfl⟩
    · obtain ⟨s, e, _⟩ := parse_loop_inv (content.take MAX_SIZE ++ junk)
        (content.take MAX_SIZE).length (content.take MAX_SIZE).length (loopInit r0)
        (by simp [loopInit]) (by simp [loopInit]) (by simp [loopInit]) (by simp [loopInit])
      rw [e]
      exact ⟨_, rfl⟩

/-- C9: for every buffer, every declared size of at most 1024 and every
initial record, the record loop of `parse_file` stops within `size`
iterations: run with an allowance of `size` iterations it returns a final
state, having entered its body at most `size` times; the offsets of the
decoded records grow by at least 6 from one to the next, and the final cursor
is below `2^31`, so the `int` holding it never overflows. -/
theorem parse_loop_terminates (buffer : List Nat) (size : Nat) (r0 : Record)
    (hs : size ≤ 1024) :
    ∃ s, parse_loop buffer size size (loopInit r0) = some s ∧
      s.iters ≤ size ∧
      s.starts.Pairwise (fun a b => a + 6 ≤ b) ∧
      s.offset < 2147483648 := by
  obtain ⟨s, e, i1, _, i3, i4⟩ := parse_loop_inv buffer size size (loopInit r0)
    (by simp [loopInit]) (by simp [loopInit]) (by simp [loopInit]) (by simp [loopInit])
  refine ⟨s, e, ?_, i3, ?_⟩
  · simpa [loopInit] using i1
  · omega

/-- C9 at the nine-byte buffer of the record `abc`. -/
theorem parse_loop_terminates_witness :
    9 ≤ 1024 ∧
    ∃ s, parse_loop [3, 97, 98, 99, 1, 0, 0, 0, 0] 9 9 (loopInit (filledRecord 7)) = some s ∧
      s.iters ≤ 9 ∧
      s.starts.Pairwise (fun a b => a + 6 ≤ b) ∧
      s.offset < 2147483648 :=
  ⟨by decide,
    parse_loop_terminates [3, 97, 98, 99, 1, 0, 0, 0, 0] 9 (filledRecord 7) (by decide)⟩

/-- C6 at the failing input: on the six-byte buffer `[0, 1, 0, 0, 0, 5]` the
loop decodes one record at offset 0 and leaves the cursor at 11, above the
buffer length 6. -/
theorem parse_loop_cursor_past_end :
    ([0, 1, 0, 0, 0, 5] : List Nat).length = 6 ∧
    (parse_loop [0, 1, 0, 0, 0, 5] 6 6 (loopInit (filledRecord 7))).map
        (fun s => (s.offset, s.starts)) = some (11, [0]) ∧
    ¬ (11 ≤ 6) := by
  have h0 : rd [0, 1, 0, 0, 0, 5] 0 = 0 := by simp [rd]
  have h5 : rd [0, 1, 0, 0, 0, 5] 5 = 5 := by simp [rd]
  have hst : (parse_record (List.drop 0 [0, 1, 0, 0, 0, 5]) (6 - 0) (filledRecord 7)).status
      = 0 := by
    rw [parse_record_status]
    simp [rd]
  refine ⟨rfl, ?_, by decide⟩
  rw [parse_loop_step _ 6 5 (loopInit (filledRecord 7)) (by simp [loopInit])
    (by simp [loopInit, rd]) hst]
  rw [parse_loop_done _ _ _ _ (by simp [loopInit, rd])]
  simp [loopInit, rd]

/-! ## Buffers of fewer than four bytes -/

/-- C8, as the code has it: on a file of fewer than 4 bytes `parse_file`
decodes no record and returns -1 when the file is empty and 0 when it holds 1
to 3 bytes; and for every declared size below 4, `parse_record` and
`parse_record_safe` return -1 and leave the record as it was, without a load
or a store. -/
theorem parse_short_buffer (content junk data : List Nat) (size : Nat) (r0 r : Record)
    (hc : content.length < 4) (hs : size < 4) :
    parse_file (some content) junk r0
      = some { status := if content.length = 0 then -1 else 0, yielded := [] } ∧
    parse_record data size r
      = { status := -1, record := r, reads := [], nameWrites := [], descWrites := [] } ∧
    parse_record_safe data size r
      = { status := -1, record := r, reads := [], nameWrites := [], descWrites := [] } := by
  refine ⟨?_, parse_record_tiny data size r hs, parse_record_safe_tiny data size r hs⟩
  have ht : content.take MAX_SIZE = content :=
    List.take_of_length_le (by simp only [MAX_SIZE]; omega)
  simp only [parse_file, ht]
  by_cases h0 : content.length = 0
  · simp [h0]
  · rw [if_neg h0, if_neg h0]
    obtain ⟨k, hk⟩ : ∃ k, content.length = k + 1 := ⟨content.length - 1, by omega⟩
    have hlt : (loopInit r0).offset < content.length := by simp only [loopInit]; omega
    conv => lhs; rw [hk]
    rw [← hk]
    by_cases hm : rd (content ++ junk) (loopInit r0).offset = 0xFF
    · have e := parse_loop_marker (content ++ junk) content.length k (loopInit r0) hlt hm
      rw [hk] at e ⊢
      rw [e]
      rfl
    · have hr : (parse_record ((content ++ junk).drop (loopInit r0).offset)
          (content.length - (loopInit r0).offset) (loopInit r0).record).status ≠ 0 := by
        rw [parse_record_tiny _ _ _ (by simp only [loopInit]; omega)]
        simp
      have e := parse_loop_fail (content ++ junk) content.length k (loopInit r0) hlt hm hr
      rw [hk] at e ⊢
      rw [e]
      rfl

/-- The amended C8 at the one-byte file `[0xFF]`. -/
theorem parse_short_buffer_witness :
    ([0xFF] : List Nat).length < 4 ∧ 3 < 4 ∧
    parse_file (some [0xFF]) [] (filledRecord 0) = some { status := 0, yielded := [] } ∧
    (parse_record [0xFF] 3 (filledRecord 0)).status = -1 := by
  have h := parse_short_buffer [0xFF] [] [0xFF] 3 (filledRecord 0) (filledRecord 0)
    (by decide) (by decide)
  refine ⟨by decide, by decide, h.1, ?_⟩
  rw [h.2.1]

/-- C8 as stated fails: on the one-byte file `[0xFF]`, `parse_file` decodes no
record and returns 0, the success status. -/
theorem parse_file_short_returns_zero :
    (parse_file (some [0xFF]) [] (filledRecord 0)).map (fun res => res.status) = some 0 ∧
    (parse_file (some [0xFF]) [] (filledRecord 0)).map (fun res => res.yielded) = some [] := by
  have e := parse_loop_marker [0xFF] 1 0 (loopInit (filledRecord 0)) (by simp [loopInit])
    (by simp [loopInit, rd])
  constructor
  · simp [parse_file, MAX_SIZE, e]
  · simp [parse_file, MAX_SIZE, e]
    rfl

/-! ## Round trip of a stream of records -/

theorem read_int_eq_le_int32 (v : List Nat) (hv : v.length = 4) (hb : isBytes v) :
    read_int v = le_int32 v := by
  match v, hv with
  | [b0, b1, b2, b3], _ =>
    have h0 : b0 < 256 := hb b0 (by simp)
    have h1 : b1 < 256 := hb b1 (by simp)
    have h2 : b2 < 256 := hb b2 (by simp)
    have h3 : b3 < 256 := hb b3 (by simp)
    have e0 : rd [b0, b1, b2, b3] 0 = b0 := by simp [rd, Nat.mod_eq_of_lt h0]
    have e1 : rd [b0, b1, b2, b3] 1 = b1 := by simp [rd, Nat.mod_eq_of_lt h1]
    have e2 : rd [b0, b1, b2, b3] 2 = b2 := by simp [rd, Nat.mod_eq_of_lt h2]
    have e3 : rd [b0, b1, b2, b3] 3 = b3 := by simp [rd, Nat.mod_eq_of_lt h3]
    rw [read_int, e0, e1, e2, e3, toInt32_of_lt _ (by omega)]
    simp [le_int32]

theorem length_memcpy_set (dst src : List Nat) (n : Nat) :
    ((memcpy dst src n).set n 0).length = dst.length := by
  rw [List.length_set, length_memcpy]

/-- The loop over a buffer that continues, from the cursor on, with the
encodings of the valid wire records `es`: it decodes them one per iteration
and stops with the cursor behind the last one. -/
theorem parse_loop_encodeAll (junk : List Nat) :
    ∀ (es : List Item) (pre : List Nat) (fuel : Nat) (s : LoopState),
      (∀ e ∈ es, e.valid) → s.record.wf → s.offset = pre.length → es.length ≤ fuel →
      ∃ s', parse_loop (pre ++ encodeAll es ++ junk) (pre.length + (encodeAll es).length)
              fuel s = some s' ∧
        s'.offset = pre.length + (encodeAll es).length ∧
        s'.iters = s.iters + es.length ∧
        ∃ ys, s'.yielded = s.yielded ++ ys ∧ List.Forall₂ Record.holds ys es := by
  intro es
  induction es with
  | nil =>
    intro pre fuel s _ _ ho _
    refine ⟨s, parse_loop_done _ _ _ _ (by simp [encodeAll, ho]), by simp [encodeAll, ho],
      by simp, [], by simp, List.Forall₂.nil⟩
  | cons e es ih =>
    intro pre fuel s hval hwf ho hfuel
    obtain ⟨f, rfl⟩ : ∃ f, fuel = f + 1 := ⟨fuel - 1, by simp at hfuel; omega⟩
    obtain ⟨hn, hv, hd, bn, bv, bd⟩ := hval e (by simp)
    have hlen := length_encode e.name e.value e.desc
    -- the buffer seen from the cursor
    have hbuf : pre ++ encodeAll (e :: es) ++ junk
        = pre ++ (encode e.name e.value e.desc ++ (encodeAll es ++ junk)) := by
      simp [encodeAll]
    have hdrop : (pre ++ encodeAll (e :: es) ++ junk).drop s.offset
        = encode e.name e.value e.desc ++ (encodeAll es ++ junk) := by
      rw [hbuf, ho, List.drop_left]
    have hsize : pre.length + (encodeAll (e :: es)).length
        = pre.length + (encode e.name e.value e.desc).length + (encodeAll es).length := by
      simp [encodeAll]; omega
    have hrd0 : rd (pre ++ encodeAll (e :: es) ++ junk) s.offset = e.name.length := by
      have := rd_drop (pre ++ encodeAll (e :: es) ++ junk) s.offset 0
      rw [Nat.add_zero] at this
      rw [← this, hdrop, rd_encode_zero _ _ _ _ (by omega)]
    have hrdd : rd (pre ++ encodeAll (e :: es) ++ junk) (s.offset + e.name.length + 5)
        = e.desc.length := by
      have := rd_drop (pre ++ encodeAll (e :: es) ++ junk) s.offset (e.name.length + 5)
      rw [Nat.add_assoc, ← this, hdrop, rd_encode_desc_len _ _ _ _ hv hd]
    have hpr := parse_record_encode e.name e.value e.desc (encodeAll es ++ junk)
      (pre.length + (encodeAll (e :: es)).length - s.offset) s.record (by omega) hv hd
      (by rw [hsize, ho]; omega)
    rw [← hdrop] at hpr
    obtain ⟨r1, hr1⟩ : ∃ r1 : Record, r1 =
        { name := (memcpy s.record.name
              (e.name ++ (e.value ++ [e.desc.length] ++ e.desc ++ (encodeAll es ++ junk)))
              e.name.length).set e.name.length 0,
          value := read_int e.value,
          description := (memcpy s.record.description (e.desc ++ (encodeAll es ++ junk))
              e.desc.length).set e.desc.length 0 } := ⟨_, rfl⟩
    have hholds : r1.holds e := by
      rw [hr1]
      exact ⟨take_memcpy_set s.record.name e.name _ bn (by rw [hwf.1]; exact hn),
        read_int_eq_le_int32 e.value hv bv,
        take_memcpy_set s.record.description e.desc _ bd (by rw [hwf.2]; exact hd)⟩
    have hwf1 : r1.wf := by
      rw [hr1]
      exact ⟨by rw [length_memcpy_set]; exact hwf.1, by rw [length_memcpy_set]; exact hwf.2⟩
    rw [← hr1] at hpr
    have hlt : s.offset < pre.length + (encodeAll (e :: es)).length := by
      rw [hsize, ho, hlen]; omega
    have hm : rd (pre ++ encodeAll (e :: es) ++ junk) s.offset ≠ 0xFF := by
      rw [hrd0]; omega
    rw [parse_loop_step _ _ f s hlt hm (by rw [hpr])]
    rw [hpr, hrd0, hrdd]
    have hbuf2 : pre ++ encodeAll (e :: es) ++ junk
        = (pre ++ encode e.name e.value e.desc) ++ encodeAll es ++ junk := by
      simp [encodeAll]
    have hsize2 : pre.length + (encodeAll (e :: es)).length
        = (pre ++ encode e.name e.value e.desc).length + (encodeAll es).length := by
      rw [hsize, List.length_append]
    rw [hbuf2, hsize2]
    obtain ⟨s', e1, e2, e3, ys, e4, e5⟩ := ih (pre ++ encode e.name e.value e.desc) f
      { offset := s.offset + (e.name.length + 6 + e.desc.length),
        record := r1,
        yielded := s.yielded ++ [r1],
        starts := s.starts ++ [s.offset],
        iters := s.iters + 1 }
      (fun e' he' => hval e' (by simp [he']))
      hwf1
      (by simp only [List.length_append, hlen, ho]; omega)
      (by simp at hfuel; omega)
    refine ⟨s', e1, e2, ?_, r1 :: ys, ?_, List.Forall₂.cons hholds e5⟩
    · rw [e3]; simp; omega
    · rw [e4]; simp

theorem length_le_length_encodeAll (es : List Item) : es.length ≤ (encodeAll es).length := by
  induction es with
  | nil => simp
  | cons e es ih =>
    simp only [encodeAll, List.length_append, List.length_cons, length_encode]
    omega

/-- C5: for every list of wire records with names shorter than 64 bytes, four
value bytes and descriptions of at most 255 bytes, whose encodings take at most
1024 bytes together, the record loop of `parse_file` over the concatenation
of the encodings (cursor starting at 0, whatever follows the buffer in memory
and whatever the record variable held) stops with the cursor equal to the
buffer length, after one iteration per record, having decoded exactly these
records in order; and `parse_file` on a file with this content returns 0 when
the list is not empty. -/
theorem parse_loop_roundtrip (es : List Item) (junk : List Nat) (r0 : Record)
    (hwf : r0.wf) (hval : ∀ e ∈ es, e.valid) (hlen : (encodeAll es).length ≤ 1024) :
    ∃ s, parse_loop (encodeAll es ++ junk) (encodeAll es).length (encodeAll es).length
            (loopInit r0) = some s ∧
      s.offset = (encodeAll es).length ∧
      s.iters = es.length ∧
      List.Forall₂ Record.holds s.yielded es ∧
      (es ≠ [] →
        parse_file (some (encodeAll es)) junk r0 = some { status := 0, yielded := s.yielded }) := by
  obtain ⟨s, e1, e2, e3, ys, e4, e5⟩ := parse_loop_encodeAll junk es [] (encodeAll es).length
    (loopInit r0) hval hwf rfl (length_le_length_encodeAll es)
  simp only [List.nil_append, List.length_nil, Nat.zero_add] at e1 e2
  have hy : s.yielded = ys := by rw [e4]; simp [loopInit]
  refine ⟨s, e1, e2, ?_, ?_, ?_⟩
  · rw [e3]; simp [loopInit]
  · rw [hy]; exact e5
  · intro hne
    have ht : (encodeAll es).take MAX_SIZE = encodeAll es :=
      List.take_of_length_le (by simp only [MAX_SIZE]; exact hlen)
    have hpos : (encodeAll es).length ≠ 0 := by
      have := length_le_length_encodeAll es
      have : es.length ≠ 0 := by
        intro h0
        exact hne (List.length_eq_zero.mp h0)
      omega
    simp only [parse_file, ht, if_neg hpos, e1, Option.map_some']

/-- C5 at the buffer of the specification: the nine bytes
`[0x03, 'a', 'b', 'c', 0x01, 0, 0, 0, 0x00]` give the one record `abc`, value
1, empty description, and the cursor ends at 9. -/
theorem parse_loop_roundtrip_witness :
    (filledRecord 7).wf ∧
    (∀ e ∈ [({ name := [97, 98, 99], value := [1, 0, 0, 0], desc := [] } : Item)], e.valid) ∧
    ∃ s, parse_loop ([3, 97, 98, 99, 1, 0, 0, 0, 0] ++ []) 9 9 (loopInit (filledRecord 7))
            = some s ∧
      s.offset = 9 ∧
      s.iters = 1 ∧
      List.Forall₂ Record.holds s.yielded
        [({ name := [97, 98, 99], value := [1, 0, 0, 0], desc := [] } : Item)] := by
  have hv : ∀ e ∈ [({ name := [97, 98, 99], value := [1, 0, 0, 0], desc := [] } : Item)],
      e.valid := by
    intro e he
    rw [List.mem_singleton] at he
    subst he
    decide
  obtain ⟨s, e1, e2, e3, e4, _⟩ := parse_loop_roundtrip
    [({ name := [97, 98, 99], value := [1, 0, 0, 0], desc := [] } : Item)] []
    (filledRecord 7) (filledRecord_wf 7) hv (by decide)
  exact ⟨filledRecord_wf 7, hv, s, e1, e2, e3, e4⟩

end SimpleParser
